import Mathlib

/-! Verification of the tinyups3 streaming multipart uploader.

The definitions below are a shallow embedding of the Go source: the
part-count computation (main.go, the inline `estParts` block and the
equivalent `partsCount` block of the historical variant), the argument
validation of the concurrent variant, the stdin read loop of the
concurrent variant, the result collector with its position-indexed
completed-parts slots, the post-loop error / abort / complete flow, and
the buffer-pool coordination structure (reader, bounded dispatch
channel, worker pool).  Machine integers (`int64`, `int`, `int32`) are
modelled as `Int` with Go's truncated division `Int.tdiv` / `Int.tmod`
where the source divides, and as `Nat` where the source value is
validated positive before use.  Byte streams are modelled as `List Nat`.
-/

namespace Tinyups3

/-- Part-count computation from main.go:
`estParts := int(*inputSize / int64(partSize)); if *inputSize%int64(partSize) != 0 { estParts++ }`.
Go `/` and `%` on `int64` truncate toward zero, hence `Int.tdiv` / `Int.tmod`. -/
def calculatePartsCount (inputSize partSize : Int) : Int :=
  let estParts := inputSize.tdiv partSize
  if inputSize.tmod partSize ≠ 0 then estParts + 1 else estParts

/-- Part-count computation of the historical variant:
`partsCount := int(*inputSize/int64(partSize)) + 1; if *inputSize%int64(partSize) == 0 { partsCount-- }`. -/
def partsCountVariant (inputSize partSize : Int) : Int :=
  let partsCount := inputSize.tdiv partSize + 1
  if inputSize.tmod partSize = 0 then partsCount - 1 else partsCount

/-- The two inline part-count formulas found in the source agree everywhere. -/
theorem calculatePartsCount_eq_variant (S P : Int) :
    calculatePartsCount S P = partsCountVariant S P := by
  unfold calculatePartsCount partsCountVariant
  by_cases h : S.tmod P = 0 <;> simp [h]

/-- Natural-number form of the part count, used by the read-loop model
(both sizes are validated positive before the loop runs). -/
def partsCountNat (inputSize partSize : Nat) : Nat :=
  inputSize / partSize + (if inputSize % partSize = 0 then 0 else 1)

theorem calculatePartsCount_natCast (s p : Nat) :
    calculatePartsCount (s : Int) (p : Int) = (partsCountNat s p : Int) := by
  unfold calculatePartsCount partsCountNat
  rw [(Int.ofNat_tdiv s p).symm, (Int.ofNat_tmod s p).symm]
  by_cases h : s % p = 0
  · rw [if_neg (by simp [h]), if_pos h]
    simp
  · have h' : ((s % p : Nat) : Int) ≠ 0 := by exact_mod_cast h
    rw [if_pos h', if_neg h]
    push_cast
    ring

/-- C3: for every `inputSize > 0` and `partSize > 0`, the computed part
count equals `ceil(inputSize / partSize)` (written `(S + P - 1) / P`),
it is `1` whenever `inputSize ≤ partSize`, and it is always at least `1`. -/
theorem c3_partsCount_eq_ceil (S P : Int) (hS : 0 < S) (hP : 0 < P) :
    calculatePartsCount S P = (S + P - 1) / P ∧
    (S ≤ P → calculatePartsCount S P = 1) ∧
    1 ≤ calculatePartsCount S P := by
  have hq := Int.ediv_add_emod S P
  have hr0 : 0 ≤ S % P := Int.emod_nonneg S (ne_of_gt hP)
  have hrP : S % P < P := Int.emod_lt_of_pos S hP
  have hdiv : S.tdiv P = S / P := Int.tdiv_eq_ediv (le_of_lt hS) (le_of_lt hP)
  have hmod : S.tmod P = S % P := Int.tmod_eq_emod (le_of_lt hS) (le_of_lt hP)
  have hqnn : 0 ≤ S / P := Int.ediv_nonneg (le_of_lt hS) (le_of_lt hP)
  unfold calculatePartsCount
  rw [hdiv, hmod]
  by_cases h : S % P = 0
  · have hS' : S / P * P = S := by linear_combination hq - h
    have e1 : S + P - 1 = (P - 1) + S / P * P := by linear_combination - hS'
    have key : (S + P - 1) / P = S / P := by
      rw [e1, Int.add_mul_ediv_right _ _ (ne_of_gt hP),
        Int.ediv_eq_zero_of_lt (by omega) (by omega), zero_add]
    have hq1 : 1 ≤ S / P := by
      by_contra hc
      have hle : S / P ≤ 0 := by omega
      have := mul_le_mul_of_nonneg_right hle (le_of_lt hP)
      rw [zero_mul] at this
      linarith [hS']
    refine ⟨by simp [h, key], fun hSP => ?_, by simp [h]; omega⟩
    have hq2 : S / P ≤ 1 := by
      by_contra hc
      have h2 : (2 : Int) ≤ S / P := by omega
      have := mul_le_mul_of_nonneg_right h2 (le_of_lt hP)
      linarith [hS']
    simp [h]
    omega
  · have hr1 : 0 < S % P := lt_of_le_of_ne hr0 (Ne.symm h)
    have e1 : S + P - 1 = (S % P - 1) + (S / P + 1) * P := by linear_combination - hq
    have key : (S + P - 1) / P = S / P + 1 := by
      rw [e1, Int.add_mul_ediv_right _ _ (ne_of_gt hP),
        Int.ediv_eq_zero_of_lt (by omega) (by omega), zero_add]
    refine ⟨by simp [h, key], fun hSP => ?_, by simp [h]; omega⟩
    have hq0 : S / P ≤ 0 := by
      by_contra hc
      have h1 : (1 : Int) ≤ S / P := by omega
      have := mul_le_mul_of_nonneg_right h1 (le_of_lt hP)
      rw [one_mul, mul_comm] at this
      linarith
    simp [h]
    omega

/-- C3 witness: the seeded test case `inputSize = 11`, `partSize = 5`. -/
theorem c3_partsCount_eq_ceil_witness :
    (0 : Int) < 11 ∧ (0 : Int) < 5 ∧
    (calculatePartsCount 11 5 = (11 + 5 - 1) / 5 ∧
      ((11 : Int) ≤ 5 → calculatePartsCount 11 5 = 1) ∧
      1 ≤ calculatePartsCount 11 5) :=
  ⟨by decide, by decide, c3_partsCount_eq_ceil 11 5 (by decide) (by decide)⟩

/-- Fatal configuration errors raised by the argument checks that run
before any AWS client call. -/
inductive ConfigError where
  | partSizeTooSmall
  | inputSizeNotPositive
  | wrongArgCount
deriving DecidableEq

/-- Argument validation of the concurrent variant of main.go, in source
order: `partSizeMB < 5` is fatal, `inputSize <= 0` is fatal, an argument
count other than 1 is fatal, and `concurrency < 1` is silently replaced
by 1 (`if *concurrency < 1 { *concurrency = 1 }`).  All of this runs
before the S3 client is built, so an error here precedes any remote call. -/
def validateArgs (partSizeMB inputSize : Int) (argCount : Nat) (concurrency : Int) :
    Except ConfigError Int :=
  if partSizeMB < 5 then .error .partSizeTooSmall
  else if inputSize ≤ 0 then .error .inputSizeNotPositive
  else if argCount ≠ 1 then .error .wrongArgCount
  else .ok (if concurrency < 1 then 1 else concurrency)

/-- C8 counterexample: with a valid part size and input size but
`concurrency = 0`, validation succeeds (returning the clamped value 1)
instead of failing with a ConfigError as the claim states. -/
theorem c8_concurrency_not_rejected :
    validateArgs 5 100 1 0 = Except.ok 1 ∧ (validateArgs 5 100 1 0).isOk = true :=
  ⟨rfl, rfl⟩

/-- C8 amended: a declared input size of 0 or negative, or a part size
below the 5 MB minimum, fails with a ConfigError before any remote call
is issued; a concurrency below 1, however, is silently clamped to 1 and
does not fail. -/
theorem c8_config_validation (ps S c : Int) (n : Nat) :
    (ps < 5 → validateArgs ps S n c = .error .partSizeTooSmall) ∧
    (5 ≤ ps → S ≤ 0 → validateArgs ps S n c = .error .inputSizeNotPositive) ∧
    (5 ≤ ps → 0 < S → validateArgs ps S 1 c = .ok (if c < 1 then 1 else c)) := by
  refine ⟨fun h => ?_, fun h1 h2 => ?_, fun h1 h2 => ?_⟩
  · simp [validateArgs, h]
  · simp [validateArgs, not_lt.mpr h1, h2]
  · simp [validateArgs, not_lt.mpr h1, not_le.mpr h2]

/-- C8 amended witness: part size 5 MB, input size 100, concurrency 0. -/
theorem c8_config_validation_witness :
    ((0 : Int) < 5 → validateArgs 0 100 1 0 = .error .partSizeTooSmall) ∧
    ((5 : Int) ≤ 5 → (0 : Int) ≤ 0 → validateArgs 5 0 1 0 = .error .inputSizeNotPositive) ∧
    ((5 : Int) ≤ 5 → (0 : Int) < 100 → validateArgs 5 100 1 0 = .ok (if (0 : Int) < 1 then 1 else 0)) :=
  ⟨fun h => (c8_config_validation 0 100 0 1).1 h,
   fun h1 h2 => (c8_config_validation 5 0 0 1).2.1 h1 h2,
   fun h1 h2 => (c8_config_validation 5 100 0 1).2.2 h1 h2⟩

/-- The five characters of the `s3://` scheme marker. -/
def s3Scheme : List Char := ['s', '3', ':', '/', '/']

/-- S3-URI parser, from the regex-based `parseS3URI` of the source
(`^s3://([^/]+)/(.+)$` matched against the whole URI): the URI must
start with `s3://`; the bucket is the maximal nonempty run of
non-`'/'` characters after the scheme; it must be followed by a `'/'`;
the key is everything after that first slash, must be nonempty, and
(because Go's `.` does not match a newline) must contain no newline.
Strings are modelled as `List Char`; `none` models the parse error. -/
def parseS3URI (uri : List Char) : Option (List Char × List Char) :=
  if uri.take 5 = s3Scheme ∧
      (uri.drop 5).takeWhile (fun c => c ≠ '/') ≠ [] ∧
      ((uri.drop 5).dropWhile (fun c => c ≠ '/')).tail ≠ [] ∧
      ((uri.drop 5).dropWhile (fun c => c ≠ '/')).tail.all (fun c => c ≠ '\n') = true then
    some ((uri.drop 5).takeWhile (fun c => c ≠ '/'),
      ((uri.drop 5).dropWhile (fun c => c ≠ '/')).tail)
  else none

theorem takeWhile_append_slash (bucket rest : List Char)
    (hbs : ∀ c ∈ bucket, c ≠ '/') :
    (bucket ++ '/' :: rest).takeWhile (fun c => c ≠ '/') = bucket ∧
    (bucket ++ '/' :: rest).dropWhile (fun c => c ≠ '/') = '/' :: rest := by
  induction bucket with
  | nil =>
    rw [List.nil_append, List.takeWhile_cons, List.dropWhile_cons,
      if_neg (by simp), if_neg (by simp)]
    exact ⟨rfl, rfl⟩
  | cons c cs ih =>
    have hc : c ≠ '/' := hbs c (List.mem_cons_self c cs)
    have ih' := ih (fun d hd => hbs d (List.mem_cons_of_mem c hd))
    refine ⟨?_, ?_⟩
    · rw [List.cons_append, List.takeWhile_cons, if_pos (by simp [hc]), ih'.1]
    · rw [List.cons_append, List.dropWhile_cons, if_pos (by simp [hc]), ih'.2]

theorem takeWhile_no_slash (bucket : List Char) (hbs : ∀ c ∈ bucket, c ≠ '/') :
    bucket.takeWhile (fun c => c ≠ '/') = bucket ∧
    bucket.dropWhile (fun c => c ≠ '/') = [] := by
  induction bucket with
  | nil => exact ⟨rfl, rfl⟩
  | cons c cs ih =>
    have hc : c ≠ '/' := hbs c (List.mem_cons_self c cs)
    have ih' := ih (fun d hd => hbs d (List.mem_cons_of_mem c hd))
    refine ⟨?_, ?_⟩
    · rw [List.takeWhile_cons, if_pos (by simp [hc]), ih'.1]
    · rw [List.dropWhile_cons, if_pos (by simp [hc]), ih'.2]

theorem scheme_take_drop (rest : List Char) :
    (s3Scheme ++ rest).take 5 = s3Scheme ∧ (s3Scheme ++ rest).drop 5 = rest := by
  exact ⟨List.take_left s3Scheme rest, List.drop_left s3Scheme rest⟩

/-- C7: for every URI of the form `s3://bucket/key` with a nonempty
slash-free bucket and a nonempty newline-free key, parsing returns
exactly that bucket and key (byte for byte, split at the first `'/'`
after the scheme); a URI missing the scheme, with an empty bucket, or
with a missing or empty key is rejected. -/
theorem c7_parseS3URI (bucket key : List Char)
    (hb : bucket ≠ []) (hbs : ∀ c ∈ bucket, c ≠ '/')
    (hk : key ≠ []) (hkn : ∀ c ∈ key, c ≠ '\n') :
    parseS3URI (s3Scheme ++ bucket ++ '/' :: key) = some (bucket, key) ∧
    (∀ uri : List Char, uri.take 5 ≠ s3Scheme → parseS3URI uri = none) ∧
    (∀ rest : List Char, parseS3URI (s3Scheme ++ '/' :: rest) = none) ∧
    parseS3URI (s3Scheme ++ bucket ++ ['/']) = none ∧
    parseS3URI (s3Scheme ++ bucket) = none := by
  refine ⟨?_, ?_, ?_, ?_, ?_⟩
  · have hsd := scheme_take_drop (bucket ++ '/' :: key)
    have hsp := takeWhile_append_slash bucket key hbs
    unfold parseS3URI
    rw [List.append_assoc]
    rw [if_pos]
    · rw [hsd.2, hsp.1, hsp.2, List.tail_cons]
    · refine ⟨hsd.1, ?_, ?_, ?_⟩
      · rw [hsd.2, hsp.1]; exact hb
      · rw [hsd.2, hsp.2, List.tail_cons]; exact hk
      · rw [hsd.2, hsp.2, List.tail_cons]
        exact List.all_eq_true.mpr (fun c hc => by simpa using hkn c hc)
  · intro uri h
    unfold parseS3URI
    exact if_neg (fun hcon => h hcon.1)
  · intro rest
    have hsd := scheme_take_drop ('/' :: rest)
    unfold parseS3URI
    refine if_neg (fun hcon => ?_)
    rcases hcon with ⟨-, h2, -, -⟩
    rw [hsd.2, List.takeWhile_cons, if_neg (by simp)] at h2
    exact h2 rfl
  · have hsd := scheme_take_drop (bucket ++ ['/'])
    have hsp := takeWhile_append_slash bucket [] hbs
    unfold parseS3URI
    rw [List.append_assoc]
    refine if_neg (fun hcon => ?_)
    rcases hcon with ⟨-, -, h3, -⟩
    rw [hsd.2, hsp.2] at h3
    exact h3 rfl
  · have hsd := scheme_take_drop bucket
    have hsp := takeWhile_no_slash bucket hbs
    unfold parseS3URI
    refine if_neg (fun hcon => ?_)
    rcases hcon with ⟨-, -, h3, -⟩
    rw [hsd.2, hsp.2] at h3
    simp at h3

/-- C7 witness: the test-table URI `s3://bucket/dir/file.txt`, the
scheme-less URI `https://bucket/key`, the bucket-less `s3:///key`, and
the key-less `s3://bucket/` and `s3://bucket`. -/
theorem c7_parseS3URI_witness :
    ("bucket".toList ≠ [] ∧ (∀ c ∈ "bucket".toList, c ≠ '/') ∧
      "dir/file.txt".toList ≠ [] ∧ (∀ c ∈ "dir/file.txt".toList, c ≠ '\n')) ∧
    (parseS3URI (s3Scheme ++ "bucket".toList ++ '/' :: "dir/file.txt".toList) =
        some ("bucket".toList, "dir/file.txt".toList) ∧
      ("https://bucket/key".toList.take 5 ≠ s3Scheme →
        parseS3URI "https://bucket/key".toList = none) ∧
      parseS3URI (s3Scheme ++ '/' :: "key".toList) = none ∧
      parseS3URI (s3Scheme ++ "bucket".toList ++ ['/']) = none ∧
      parseS3URI (s3Scheme ++ "bucket".toList) = none) := by
  have h := c7_parseS3URI "bucket".toList "dir/file.txt".toList
    (by decide) (by decide) (by decide) (by decide)
  exact ⟨⟨by decide, by decide, by decide, by decide⟩,
    h.1, fun hne => h.2.1 "https://bucket/key".toList hne,
    h.2.2.1 "key".toList, h.2.2.2.1, h.2.2.2.2⟩

/-- Read errors of the Go `io` package as seen by the loop: `eof` models
`io.EOF`, `unexpectedEOF` models `io.ErrUnexpectedEOF`, and `ioErr`
models any other (non-EOF) read failure. -/
inductive ReadErr where
  | eof
  | unexpectedEOF
  | ioErr
deriving DecidableEq

/-- Model of `io.ReadFull(os.Stdin, buf[:readSize])` against a stream
that yields `bytes` and then either a clean EOF (`failsAfter = false`)
or a non-EOF read failure (`failsAfter = true`).  Returns the number of
bytes read, the error, and the rest of the stream: a full read returns
no error; a short read returns the underlying failure if the stream
fails, `io.EOF` if nothing was read, and `io.ErrUnexpectedEOF` if the
stream ended after yielding some bytes. -/
def readFull (readSize : Nat) (bytes : List Nat) (failsAfter : Bool) :
    Nat × Option ReadErr × List Nat :=
  if readSize ≤ bytes.length then (readSize, none, bytes.drop readSize)
  else (bytes.length,
    some (if failsAfter then .ioErr
      else if bytes.length = 0 then .eof else .unexpectedEOF),
    [])

/-- The stdin read loop of the concurrent variant of main.go, iterating
`for partNumber <= partsCount`: each iteration computes
`remainingBytes = inputSize - (partNumber-1)*partSize`, reads
`min(partSize, remainingBytes)` bytes with `io.ReadFull`, breaks with
the read error set on a non-EOF failure, breaks silently on `n == 0`,
dispatches the chunk `(partNumber, first n bytes)`, and breaks after
dispatch when the read hit EOF or unexpected EOF.  `partsLeft` counts
the remaining loop iterations (`partsCount - partNumber + 1`); the
second component of the result is the `readError` flag. -/
def readLoopGo (inputSize partSize : Nat) (failsAfter : Bool) :
    Nat → Nat → List Nat → List (Nat × List Nat) × Bool
  | 0, _, _ => ([], false)
  | partsLeft + 1, pn, bytes =>
    let remainingBytes := inputSize - (pn - 1) * partSize
    let readSize := min partSize remainingBytes
    let r := readFull readSize bytes failsAfter
    if r.2.1 = some .ioErr then ([], true)
    else if r.1 = 0 then ([], false)
    else if r.2.1 = none then
      let out := readLoopGo inputSize partSize failsAfter partsLeft (pn + 1) r.2.2
      ((pn, bytes.take r.1) :: out.1, out.2)
    else ([(pn, bytes.take r.1)], false)

/-- The read loop started at part number 1 with `partsCount` iterations
available, exactly as in the source. -/
def readLoop (inputSize partSize : Nat) (bytes : List Nat) (failsAfter : Bool) :
    List (Nat × List Nat) × Bool :=
  readLoopGo inputSize partSize failsAfter (partsCountNat inputSize partSize) 1 bytes

/-- The chunk sequence the loop produces on a fully available stream:
`k` chunks starting at part number `pn`, each of `partSize` bytes except
the last, which takes whatever remains of `bytes`. -/
def chunkBytes (partSize : Nat) : Nat → Nat → List Nat → List (Nat × List Nat)
  | 0, _, _ => []
  | 1, pn, bytes => [(pn, bytes)]
  | partsLeft + 2, pn, bytes =>
    (pn, bytes.take partSize) ::
      chunkBytes partSize (partsLeft + 1) (pn + 1) (bytes.drop partSize)

theorem chunkBytes_flatten (P : Nat) :
    ∀ (k pn : Nat) (bytes : List Nat), 0 < k →
      ((chunkBytes P k pn bytes).map Prod.snd).flatten = bytes := by
  intro k
  induction k with
  | zero => intro pn bytes h; omega
  | succ k ih =>
    intro pn bytes _
    match k with
    | 0 => simp [chunkBytes]
    | k' + 1 =>
      show ((chunkBytes P (k' + 2) pn bytes).map Prod.snd).flatten = bytes
      rw [chunkBytes]
      simp only [List.map_cons, List.flatten_cons]
      rw [ih (pn + 1) (bytes.drop P) (by omega), List.take_append_drop]

theorem chunkBytes_count (P : Nat) :
    ∀ (k pn : Nat) (bytes : List Nat), (chunkBytes P k pn bytes).length = k := by
  intro k
  induction k with
  | zero => intro pn bytes; rfl
  | succ k ih =>
    intro pn bytes
    match k with
    | 0 => rfl
    | k' + 1 =>
      show (chunkBytes P (k' + 2) pn bytes).length = k' + 2
      rw [chunkBytes]
      simp only [List.length_cons]
      rw [ih (pn + 1) (bytes.drop P)]

theorem chunkBytes_lengths (P : Nat) :
    ∀ (k pn : Nat) (bytes : List Nat), 0 < k → (k - 1) * P ≤ bytes.length →
      (chunkBytes P k pn bytes).map (fun c => c.2.length) =
        List.replicate (k - 1) P ++ [bytes.length - (k - 1) * P] := by
  intro k
  induction k with
  | zero => intro pn bytes h; omega
  | succ k ih =>
    intro pn bytes _ hlen
    match k with
    | 0 => simp [chunkBytes]
    | k' + 1 =>
      have hlen' : (k' + 1) * P ≤ bytes.length := by
        simpa using hlen
      have h9 : k' * P + P ≤ bytes.length := by
        have h9' := hlen'
        rw [Nat.succ_mul] at h9'
        exact h9'
      have hPle : P ≤ bytes.length := by omega
      show (chunkBytes P (k' + 2) pn bytes).map (fun c => c.2.length) =
        List.replicate (k' + 2 - 1) P ++ [bytes.length - (k' + 2 - 1) * P]
      rw [chunkBytes]
      simp only [List.map_cons]
      rw [ih (pn + 1) (bytes.drop P) (by omega)
        (by simp only [Nat.add_sub_cancel]; rw [List.length_drop]; omega)]
      have h1 : (bytes.take P).length = P := by
        rw [List.length_take]; omega
      have h2 : (k' + 2 - 1) = (k' + 1 - 1) + 1 := by omega
      rw [h1, List.length_drop]
      have h3 : List.replicate (k' + 2 - 1) P = P :: List.replicate (k' + 1 - 1) P := by
        rw [h2, List.replicate_succ]
      rw [h3]
      have h4 : bytes.length - P - (k' + 1 - 1) * P = bytes.length - (k' + 2 - 1) * P := by
        have h5 : (k' + 2 - 1) * P = (k' + 1 - 1) * P + P := by rw [h2, Nat.succ_mul]
        rw [h5]
        omega
      rw [h4]
      simp [List.cons_append]

theorem readLoopGo_complete (S P : Nat) (f : Bool) :
    ∀ (k pn : Nat) (bytes : List Nat), 0 < P → 1 ≤ pn →
      0 < S - (pn - 1) * P →
      S - (pn - 1) * P ≤ k * P →
      (k - 1) * P < S - (pn - 1) * P →
      S - (pn - 1) * P ≤ bytes.length →
      readLoopGo S P f k pn bytes =
        (chunkBytes P k pn (bytes.take (S - (pn - 1) * P)), false) := by
  intro k
  induction k with
  | zero =>
    intro pn bytes hP hpn hpos hub hlb hlen
    simp only [Nat.zero_mul] at hub
    omega
  | succ k ih =>
    intro pn bytes hP hpn hpos hub hlb hlen
    match k with
    | 0 =>
      have hremP : S - (pn - 1) * P ≤ P := by simpa using hub
      have hmin : min P (S - (pn - 1) * P) = S - (pn - 1) * P :=
        Nat.min_eq_right hremP
      rw [readLoopGo]
      simp only [hmin]
      rw [readFull, if_pos hlen]
      simp only [Option.some.injEq, reduceCtorEq]
      rw [if_neg (by simp), if_neg (by omega), if_pos trivial]
      rw [readLoopGo]
      simp [chunkBytes]
    | k' + 1 =>
      have hPlt : P < S - (pn - 1) * P := by
        have : (k' + 1) * P < S - (pn - 1) * P := by simpa using hlb
        rw [Nat.succ_mul] at this
        omega
      have hmin : min P (S - (pn - 1) * P) = P := Nat.min_eq_left (le_of_lt hPlt)
      have hPlen : P ≤ bytes.length := le_trans (le_of_lt hPlt) hlen
      have hrem' : S - (pn + 1 - 1) * P = (S - (pn - 1) * P) - P := by
        have hpn' : (pn + 1 - 1) * P = (pn - 1) * P + P := by
          have : pn + 1 - 1 = (pn - 1) + 1 := by omega
          rw [this, Nat.succ_mul]
        rw [hpn', Nat.sub_add_eq]
      rw [readLoopGo]
      simp only [hmin]
      rw [readFull, if_pos hPlen]
      simp only [Option.some.injEq, reduceCtorEq]
      rw [if_neg (by simp), if_neg (by omega), if_pos trivial]
      rw [ih (pn + 1) (bytes.drop P) hP (by omega) ?_ ?_ ?_ ?_]
      · simp only [Prod.mk.injEq, and_true]
        rw [hrem']
        have ht1 : (bytes.take (S - (pn - 1) * P)).take P = bytes.take P := by
          rw [List.take_take, Nat.min_eq_left (le_of_lt hPlt)]
        have ht2 : (bytes.take (S - (pn - 1) * P)).drop P =
            (bytes.drop P).take (S - (pn - 1) * P - P) := List.drop_take _ _ _
        show (pn, bytes.take P) ::
            chunkBytes P (k' + 1) (pn + 1) ((bytes.drop P).take (S - (pn - 1) * P - P)) =
          chunkBytes P (k' + 2) pn (bytes.take (S - (pn - 1) * P))
        rw [chunkBytes, ht1, ht2]
      · rw [hrem']; omega
      · rw [hrem']
        have h5 : (k' + 1 + 1) * P = (k' + 1) * P + P := Nat.succ_mul _ _
        rw [h5] at hub
        omega
      · rw [hrem']
        have h6 : (k' + 1) * P = k' * P + P := Nat.succ_mul _ _
        have h7 : (k' + 1 + 1 - 1) * P = k' * P + P := by
          simpa using h6
        rw [h7] at hlb
        have h8 : (k' + 1 - 1) * P = k' * P := by simp
        rw [h8]
        omega
      · rw [hrem', List.length_drop]
        omega

theorem partsCountNat_bounds (S P : Nat) (hS : 0 < S) (hP : 0 < P) :
    S ≤ partsCountNat S P * P ∧ (partsCountNat S P - 1) * P < S := by
  have hdm := Nat.div_add_mod S P
  have hlt : S % P < P := Nat.mod_lt S hP
  unfold partsCountNat
  by_cases h : S % P = 0
  · have hq1 : 1 ≤ S / P := by
      rcases Nat.eq_zero_or_pos (S / P) with h0 | h0
      · rw [h0, Nat.mul_zero] at hdm; omega
      · exact h0
    obtain ⟨q', hq'⟩ : ∃ q', S / P = q' + 1 := ⟨S / P - 1, by omega⟩
    rw [if_pos h, hq']
    simp only [Nat.add_zero, Nat.add_sub_cancel]
    rw [hq', Nat.mul_succ, h, Nat.mul_comm P q'] at hdm
    constructor
    · rw [Nat.succ_mul]
      omega
    · omega
  · rw [if_neg h]
    rw [Nat.mul_comm] at hdm
    constructor
    · rw [Nat.succ_mul]
      omega
    · simp only [Nat.add_sub_cancel]
      omega

theorem partsCountNat_pos (S P : Nat) (hS : 0 < S) (hP : 0 < P) :
    0 < partsCountNat S P := by
  rcases Nat.eq_zero_or_pos (partsCountNat S P) with h0 | h0
  · have := (partsCountNat_bounds S P hS hP).1
    rw [h0, Nat.zero_mul] at this
    omega
  · exact h0

theorem partsCountNat_last (S P : Nat) (hS : 0 < S) (hP : 0 < P) :
    S - (partsCountNat S P - 1) * P = if S % P = 0 then P else S % P := by
  have hdm := Nat.div_add_mod S P
  have hlt : S % P < P := Nat.mod_lt S hP
  by_cases h : S % P = 0
  · rw [if_pos h]
    unfold partsCountNat
    rw [if_pos h]
    have hq1 : 1 ≤ S / P := by
      rcases Nat.eq_zero_or_pos (S / P) with h0 | h0
      · rw [h0, Nat.mul_zero] at hdm; omega
      · exact h0
    obtain ⟨q', hq'⟩ : ∃ q', S / P = q' + 1 := ⟨S / P - 1, by omega⟩
    rw [hq']
    simp only [Nat.add_zero, Nat.add_sub_cancel]
    rw [hq', Nat.mul_succ, h, Nat.mul_comm P q'] at hdm
    omega
  · rw [if_neg h]
    unfold partsCountNat
    rw [if_neg h]
    simp only [Nat.add_sub_cancel]
    rw [Nat.mul_comm] at hdm
    omega

/-- C5: running the read loop on a stream of exactly `S` bytes with part
size `P` flags no error, produces exactly the derived part count of
chunks, concatenating the chunks in sequence order reproduces the
stream byte for byte, and each chunk is exactly `P` bytes long except
the last, whose length is `S mod P` (or `P` when that remainder is 0). -/
theorem c5_chunk_roundtrip (S P : Nat) (bytes : List Nat)
    (hS : 0 < S) (hP : 0 < P) (hlen : bytes.length = S) :
    (readLoop S P bytes false).2 = false ∧
    (readLoop S P bytes false).1.length = partsCountNat S P ∧
    ((readLoop S P bytes false).1.map Prod.snd).flatten = bytes ∧
    (readLoop S P bytes false).1.map (fun c => c.2.length) =
      List.replicate (partsCountNat S P - 1) P ++
        [if S % P = 0 then P else S % P] := by
  have hb := partsCountNat_bounds S P hS hP
  have hrem : S - (1 - 1) * P = S := by simp
  have hmain := readLoopGo_complete S P false (partsCountNat S P) 1 bytes hP
    (le_refl 1) (by rw [hrem]; exact hS) (by rw [hrem]; exact hb.1)
    (by rw [hrem]; exact hb.2) (by rw [hrem, hlen])
  rw [hrem] at hmain
  have htake : bytes.take S = bytes := List.take_of_length_le (le_of_eq hlen)
  rw [htake] at hmain
  unfold readLoop
  rw [hmain]
  refine ⟨rfl, chunkBytes_count P _ 1 bytes, ?_, ?_⟩
  · exact chunkBytes_flatten P _ 1 bytes (partsCountNat_pos S P hS hP)
  · rw [chunkBytes_lengths P _ 1 bytes (partsCountNat_pos S P hS hP)
      (by rw [hlen]; omega), hlen, partsCountNat_last S P hS hP]

/-- C5 witness: `S = 5`, `P = 2`, stream `[1, 2, 3, 4, 5]`. -/
theorem c5_chunk_roundtrip_witness :
    ((0 : Nat) < 5 ∧ (0 : Nat) < 2 ∧ ([1, 2, 3, 4, 5] : List Nat).length = 5) ∧
    ((readLoop 5 2 [1, 2, 3, 4, 5] false).2 = false ∧
      (readLoop 5 2 [1, 2, 3, 4, 5] false).1.length = partsCountNat 5 2 ∧
      ((readLoop 5 2 [1, 2, 3, 4, 5] false).1.map Prod.snd).flatten = [1, 2, 3, 4, 5] ∧
      (readLoop 5 2 [1, 2, 3, 4, 5] false).1.map (fun c => c.2.length) =
        List.replicate (partsCountNat 5 2 - 1) 2 ++ [if 5 % 2 = 0 then 2 else 5 % 2]) :=
  ⟨⟨by decide, by decide, by decide⟩,
    c5_chunk_roundtrip 5 2 [1, 2, 3, 4, 5] (by decide) (by decide) (by decide)⟩

/-- C4: when the stream is prepared to yield at least `inputSize` bytes,
the loop flags no error, dispatches exactly the derived part count of
chunks whose concatenation is exactly the first `inputSize` bytes of
the stream, and its entire result depends only on those first
`inputSize` bytes — nothing past the declared size is read or included. -/
theorem c4_reads_exactly_inputSize (S P : Nat) (bytes : List Nat)
    (hS : 0 < S) (hP : 0 < P) (hlen : S ≤ bytes.length) :
    (readLoop S P bytes false).2 = false ∧
    (readLoop S P bytes false).1.length = partsCountNat S P ∧
    ((readLoop S P bytes false).1.map Prod.snd).flatten = bytes.take S ∧
    readLoop S P bytes false = readLoop S P (bytes.take S) false := by
  have hb := partsCountNat_bounds S P hS hP
  have hrem : S - (1 - 1) * P = S := by simp
  have hmain := readLoopGo_complete S P false (partsCountNat S P) 1 bytes hP
    (le_refl 1) (by rw [hrem]; exact hS) (by rw [hrem]; exact hb.1)
    (by rw [hrem]; exact hb.2) (by rw [hrem]; exact hlen)
  rw [hrem] at hmain
  have hlen2 : (bytes.take S).length = S := by
    rw [List.length_take]; omega
  have hmain2 := readLoopGo_complete S P false (partsCountNat S P) 1 (bytes.take S) hP
    (le_refl 1) (by rw [hrem]; exact hS) (by rw [hrem]; exact hb.1)
    (by rw [hrem]; exact hb.2) (by rw [hrem, hlen2])
  rw [hrem] at hmain2
  have htt : (bytes.take S).take S = bytes.take S := by
    rw [List.take_take]; simp
  rw [htt] at hmain2
  unfold readLoop
  rw [hmain, hmain2]
  exact ⟨rfl, chunkBytes_count P _ 1 _,
    chunkBytes_flatten P _ 1 _ (partsCountNat_pos S P hS hP), rfl⟩

/-- C4 witness: `S = 5`, `P = 2`, a stream offering 8 bytes. -/
theorem c4_reads_exactly_inputSize_witness :
    ((0 : Nat) < 5 ∧ (0 : Nat) < 2 ∧ (5 : Nat) ≤ ([1, 2, 3, 4, 5, 6, 7, 8] : List Nat).length) ∧
    ((readLoop 5 2 [1, 2, 3, 4, 5, 6, 7, 8] false).2 = false ∧
      (readLoop 5 2 [1, 2, 3, 4, 5, 6, 7, 8] false).1.length = partsCountNat 5 2 ∧
      ((readLoop 5 2 [1, 2, 3, 4, 5, 6, 7, 8] false).1.map Prod.snd).flatten =
        ([1, 2, 3, 4, 5, 6, 7, 8] : List Nat).take 5 ∧
      readLoop 5 2 [1, 2, 3, 4, 5, 6, 7, 8] false =
        readLoop 5 2 (([1, 2, 3, 4, 5, 6, 7, 8] : List Nat).take 5) false) :=
  ⟨⟨by decide, by decide, by decide⟩,
    c4_reads_exactly_inputSize 5 2 [1, 2, 3, 4, 5, 6, 7, 8] (by decide) (by decide) (by decide)⟩

theorem readFull_noFail (rs : Nat) (bytes : List Nat) :
    (readFull rs bytes false).2.1 ≠ some ReadErr.ioErr := by
  unfold readFull
  by_cases hr : rs ≤ bytes.length
  · rw [if_pos hr]
    simp
  · rw [if_neg hr]
    by_cases h0 : bytes.length = 0
    · simp [h0]
    · simp [h0]

theorem readFull_ok (rs : Nat) (bytes : List Nat) (f : Bool) (h : rs ≤ bytes.length) :
    readFull rs bytes f = (rs, none, bytes.drop rs) := by
  unfold readFull
  rw [if_pos h]

theorem readFull_fail (rs : Nat) (bytes : List Nat) (h : bytes.length < rs) :
    (readFull rs bytes true).2.1 = some ReadErr.ioErr := by
  unfold readFull
  rw [if_neg (by omega)]
  simp

theorem readLoopGo_noFail (S P : Nat) :
    ∀ (k pn : Nat) (bytes : List Nat), (readLoopGo S P false k pn bytes).2 = false := by
  intro k
  induction k with
  | zero => intro pn bytes; rfl
  | succ k ih =>
    intro pn bytes
    simp only [readLoopGo]
    rw [if_neg (readFull_noFail _ _)]
    by_cases h0 : (readFull (min P (S - (pn - 1) * P)) bytes false).1 = 0
    · rw [if_pos h0]
    · rw [if_neg h0]
      by_cases hn : (readFull (min P (S - (pn - 1) * P)) bytes false).2.1 = none
      · rw [if_pos hn]
        exact ih (pn + 1) _
      · rw [if_neg hn]

theorem rem_step (S P pn : Nat) (hpn : 1 ≤ pn) :
    S - (pn + 1 - 1) * P = S - (pn - 1) * P - P := by
  have hpn' : (pn + 1 - 1) * P = (pn - 1) * P + P := by
    have h : pn + 1 - 1 = (pn - 1) + 1 := by omega
    rw [h, Nat.succ_mul]
  rw [hpn', Nat.sub_add_eq]

theorem readLoopGo_fail (S P : Nat) (hP : 0 < P) :
    ∀ (k pn : Nat) (bytes : List Nat), 1 ≤ pn →
      bytes.length < S - (pn - 1) * P →
      S - (pn - 1) * P ≤ k * P →
      (readLoopGo S P true k pn bytes).2 = true := by
  intro k
  induction k with
  | zero =>
    intro pn bytes hpn hlt hub
    rw [Nat.zero_mul] at hub
    omega
  | succ k ih =>
    intro pn bytes hpn hlt hub
    simp only [readLoopGo]
    by_cases hr : min P (S - (pn - 1) * P) ≤ bytes.length
    · have hmin : min P (S - (pn - 1) * P) = P := by
        rcases min_choice P (S - (pn - 1) * P) with he | he
        · exact he
        · rw [he] at hr; omega
      rw [hmin] at hr ⊢
      rw [readFull_ok P bytes true hr]
      rw [if_neg (by simp), if_neg (by simp [hP.ne']), if_pos rfl]
      refine ih (pn + 1) (bytes.drop P) (by omega) ?_ ?_
      · rw [List.length_drop, rem_step S P pn hpn]
        omega
      · rw [rem_step S P pn hpn]
        rw [Nat.succ_mul] at hub
        omega
    · rw [if_pos (readFull_fail _ _ (by omega))]

/-- The read loop never flags a read error on a stream that merely ends
early: only a genuine non-EOF read failure can set the flag. -/
theorem readLoop_noFail (S P : Nat) (bytes : List Nat) :
    (readLoop S P bytes false).2 = false :=
  readLoopGo_noFail S P (partsCountNat S P) 1 bytes

/-- A stream that suffers a non-EOF read failure before yielding the
declared `inputSize` bytes always sets the read-error flag. -/
theorem readLoop_shortFail (S P : Nat) (bytes : List Nat) (hP : 0 < P)
    (hlt : bytes.length < S) : (readLoop S P bytes true).2 = true := by
  unfold readLoop
  refine readLoopGo_fail S P hP (partsCountNat S P) 1 bytes (le_refl 1) ?_ ?_
  · simpa using hlt
  · have hS : 0 < S := by omega
    simpa using (partsCountNat_bounds S P hS hP).1

/-- Outcome of the tail of `main` in the concurrent variant: how many
`AbortMultipartUpload` calls were made, whether
`CompleteMultipartUpload` was called, and whether the run succeeded. -/
structure FinishResult where
  abortCalls : Nat
  completeCalled : Bool
  success : Bool
deriving DecidableEq

/-- Post-loop error handling of the concurrent variant of main.go, in
source order: a read error aborts and exits fatally; otherwise an upload
error aborts and exits fatally; otherwise `CompleteMultipartUpload` is
called, and if it fails the session is aborted before the fatal exit;
otherwise the run succeeds with no abort. -/
def finishUpload (readError uploadError completeFails : Bool) : FinishResult :=
  if readError then ⟨1, false, false⟩
  else if uploadError then ⟨1, false, false⟩
  else if completeFails then ⟨1, true, false⟩
  else ⟨0, true, true⟩

/-- A full coordinator run on a given stream, with all part uploads
assumed to succeed: the read loop feeds its error flag into the
post-loop error handling. -/
def runUpload (inputSize partSize : Nat) (bytes : List Nat)
    (failsAfter completeFails : Bool) : FinishResult :=
  finishUpload (readLoop inputSize partSize bytes failsAfter).2 false completeFails

/-- C1 counterexample: with `inputSize` = 10 MiB, `partSize` = 5 MiB and
a stream that ends cleanly after only 8 MiB, the coordinator flags no
read error, issues no abort, and calls CompleteMultipartUpload — the
truncated input is treated as ordinary end of input, not as a fatal
InputError. -/
theorem c1_truncated_stream_completes :
    (List.replicate 8388608 0).length < 10485760 ∧
    runUpload 10485760 5242880 (List.replicate 8388608 0) false false =
      ⟨0, true, true⟩ := by
  constructor
  · rw [List.length_replicate]
    norm_num
  · unfold runUpload
    rw [readLoop_noFail]
    rfl

/-- C1 amended: a stream that reaches EOF before yielding `inputSize`
bytes is treated as normal end of input — the read-error flag stays
clear, no abort happens, and the completion call is made; only a
non-EOF read failure sets the read error, aborts the session exactly
once, and skips the completion call. -/
theorem c1_short_read_is_eof (S P : Nat) (bytes : List Nat) :
    runUpload S P bytes false false = ⟨0, true, true⟩ ∧
    (0 < P → bytes.length < S →
      runUpload S P bytes true false = ⟨1, false, false⟩) := by
  constructor
  · unfold runUpload
    rw [readLoop_noFail]
    rfl
  · intro hP hlt
    unfold runUpload
    rw [readLoop_shortFail S P bytes hP hlt]
    rfl

/-- C1 amended witness: `S = 10`, `P = 5`, a stream of 8 bytes. -/
theorem c1_short_read_is_eof_witness :
    ((0 : Nat) < 5 ∧ ([0, 0, 0, 0, 0, 0, 0, 0] : List Nat).length < 10) ∧
    (runUpload 10 5 [0, 0, 0, 0, 0, 0, 0, 0] false false = ⟨0, true, true⟩ ∧
      runUpload 10 5 [0, 0, 0, 0, 0, 0, 0, 0] true false = ⟨1, false, false⟩) :=
  ⟨⟨by decide, by decide⟩,
    (c1_short_read_is_eof 10 5 [0, 0, 0, 0, 0, 0, 0, 0]).1,
    (c1_short_read_is_eof 10 5 [0, 0, 0, 0, 0, 0, 0, 0]).2 (by decide) (by decide)⟩

/-- C6: every failure after the session is open — a read error, a part
upload error, or a failure of the completion call itself — results in
exactly one abort call before the error surfaces; a successful run
aborts nothing; a completion-call failure in particular aborts the
session; and the completion call is made exactly when neither a read
nor an upload error occurred. -/
theorem c6_abort_exactly_once (re ue cf : Bool) :
    ((finishUpload re ue cf).success = false → (finishUpload re ue cf).abortCalls = 1) ∧
    ((finishUpload re ue cf).success = true → (finishUpload re ue cf).abortCalls = 0) ∧
    (cf = true →
      (finishUpload re ue cf).abortCalls = 1 ∧ (finishUpload re ue cf).success = false) ∧
    (re = false → ue = false → (finishUpload re ue cf).completeCalled = true) := by
  cases re <;> cases ue <;> cases cf <;> simp [finishUpload]

/-- C6 witness: a completion-call failure with no read or upload error. -/
theorem c6_abort_exactly_once_witness :
    ((finishUpload false false true).success = false →
      (finishUpload false false true).abortCalls = 1) ∧
    ((finishUpload false false true).abortCalls = 1 ∧
      (finishUpload false false true).success = false) ∧
    (finishUpload false false true).completeCalled = true :=
  ⟨(c6_abort_exactly_once false false true).1,
    (c6_abort_exactly_once false false true).2.2.1 rfl,
    (c6_abort_exactly_once false false true).2.2.2 rfl rfl⟩

/-- One completed part as recorded by the collector: the backend
integrity tag (opaque, modelled as a Nat) and the part's sequence
number (`int32` in the source, modelled as `Int`). -/
structure CompletedPart where
  etag : Nat
  partNumber : Int
deriving DecidableEq

/-- The collector's guarded slot write (main.go concurrent variant):
`idx := int(*result.part.PartNumber) - 1;`
`if idx >= 0 && idx < len(completedParts) { completedParts[idx] = result.part }`.
An unwritten slot is `none` (the Go zero value). -/
def recordPart (slots : List (Option CompletedPart)) (p : CompletedPart) :
    List (Option CompletedPart) :=
  if 0 ≤ p.partNumber - 1 ∧ p.partNumber - 1 < (slots.length : Int) then
    slots.set (p.partNumber - 1).toNat (some p)
  else slots

/-- The result collector: `completedParts := make([]types.CompletedPart, partsCount)`
followed by one guarded positional write per arriving result. -/
def collectParts (partsCount : Nat) (results : List CompletedPart) :
    List (Option CompletedPart) :=
  results.foldl recordPart (List.replicate partsCount none)

/-- The sequence numbers of the manifest read off the slot array in
slot order (empty slots skipped). -/
def manifestNumbers (slots : List (Option CompletedPart)) : List Int :=
  slots.filterMap (fun o => o.map CompletedPart.partNumber)

theorem recordPart_length (slots : List (Option CompletedPart)) (p : CompletedPart) :
    (recordPart slots p).length = slots.length := by
  unfold recordPart
  split
  · exact List.length_set slots _ _
  · rfl

theorem foldl_recordPart_length (rs : List CompletedPart) :
    ∀ slots, (rs.foldl recordPart slots).length = slots.length := by
  induction rs with
  | nil => intro slots; rfl
  | cons p ps ih =>
    intro slots
    rw [List.foldl_cons, ih, recordPart_length]

/-- Every filled slot `i` holds a part whose sequence number is `i + 1`. -/
def SlotInv (slots : List (Option CompletedPart)) : Prop :=
  ∀ (i : Nat) (p : CompletedPart), slots[i]? = some (some p) → p.partNumber = (i : Int) + 1

theorem recordPart_inv (slots : List (Option CompletedPart)) (p : CompletedPart)
    (h : SlotInv slots) : SlotInv (recordPart slots p) := by
  unfold recordPart
  split
  case isTrue hc =>
    intro i q hq
    by_cases hij : (p.partNumber - 1).toNat = i
    · rw [← hij] at hq ⊢
      rw [List.getElem?_set_self (by omega)] at hq
      have hpq : p = q := by
        have := Option.some.inj (Option.some.inj hq)
        exact this
      rw [← hpq]
      omega
    · rw [List.getElem?_set_ne hij] at hq
      exact h i q hq
  case isFalse hc => exact h

theorem recordPart_hit (slots : List (Option CompletedPart)) (p : CompletedPart)
    (i : Nat) (hpn : p.partNumber = (i : Int) + 1) (hi : i < slots.length) :
    (recordPart slots p)[i]? = some (some p) := by
  unfold recordPart
  rw [if_pos (by omega)]
  have hidx : (p.partNumber - 1).toNat = i := by omega
  rw [hidx, List.getElem?_set_self hi]

theorem foldl_record_filled (rs : List CompletedPart) :
    ∀ (slots : List (Option CompletedPart)) (i : Nat) (q : CompletedPart),
      slots[i]? = some (some q) →
      ∃ r, (rs.foldl recordPart slots)[i]? = some (some r) := by
  induction rs with
  | nil => intro slots i q h; exact ⟨q, h⟩
  | cons p ps ih =>
    intro slots i q h
    rw [List.foldl_cons]
    unfold recordPart
    split
    case isTrue hc =>
      by_cases hij : (p.partNumber - 1).toNat = i
      · refine ih _ i p ?_
        rw [← hij, List.getElem?_set_self (by omega)]
      · refine ih _ i q ?_
        rw [List.getElem?_set_ne hij]
        exact h
    case isFalse hc => exact ih slots i q h

theorem collect_covers (rs : List CompletedPart) :
    ∀ (slots : List (Option CompletedPart)) (i : Nat), i < slots.length →
      (∃ p ∈ rs, p.partNumber = (i : Int) + 1) →
      ∃ q, (rs.foldl recordPart slots)[i]? = some (some q) := by
  induction rs with
  | nil =>
    rintro slots i hi ⟨p, hp, -⟩
    simp at hp
  | cons p ps ih =>
    rintro slots i hi ⟨r, hr, hrn⟩
    rw [List.foldl_cons]
    rcases List.mem_cons.mp hr with heq | hr'
    · rw [heq] at hrn
      exact foldl_record_filled ps (recordPart slots p) i p
        (recordPart_hit slots p i hrn hi)
    · exact ih (recordPart slots p) i
        (by rw [recordPart_length]; exact hi) ⟨r, hr', hrn⟩

theorem collect_inv (rs : List CompletedPart) :
    ∀ slots, SlotInv slots → SlotInv (rs.foldl recordPart slots) := by
  induction rs with
  | nil => intro slots h; exact h
  | cons p ps ih => intro slots h; exact ih _ (recordPart_inv slots p h)

theorem slotInv_replicate (n : Nat) : SlotInv (List.replicate n none) := by
  intro i p h
  rw [List.getElem?_replicate] at h
  split at h
  · exact absurd (Option.some.inj h) (by simp)
  · exact absurd h (by simp)

theorem manifestNumbers_of_filled :
    ∀ (slots : List (Option CompletedPart)) (f : Nat → Int),
      (∀ i, i < slots.length → ∃ p, slots[i]? = some (some p) ∧ p.partNumber = f i) →
      manifestNumbers slots = (List.range slots.length).map f := by
  intro slots
  induction slots with
  | nil => intro f _; rfl
  | cons o rest ih =>
    intro f h
    obtain ⟨p, hp, hpn⟩ := h 0 (Nat.succ_pos _)
    rw [List.getElem?_cons_zero] at hp
    have ho : o = some p := Option.some.inj hp
    subst ho
    have ih' := ih (fun j => f (j + 1)) (fun j hj => by
      obtain ⟨q, hq, hqn⟩ := h (j + 1) (by simpa using Nat.succ_lt_succ hj)
      rw [List.getElem?_cons_succ] at hq
      exact ⟨q, hq, hqn⟩)
    unfold manifestNumbers at ih' ⊢
    show p.partNumber :: List.filterMap (fun o => o.map CompletedPart.partNumber) rest =
      (List.range (rest.length + 1)).map f
    rw [ih', List.range_succ_eq_map, List.map_cons, List.map_map, hpn]
    rfl

/-- C2: for any number of parts `n` and any arrival order of the
completed-part results (any permutation of the sequence numbers
`1..n`), the collector records each result into the slot indexed by its
sequence number minus one, and the final manifest lists the sequence
numbers `1, 2, ..., n` — strictly increasing, dense, and without
duplicates — regardless of completion order. -/
theorem c2_manifest_sorted (n : Nat) (results : List CompletedPart)
    (hperm : List.Perm (results.map CompletedPart.partNumber)
      ((List.range n).map (fun i : Nat => (i : Int) + 1))) :
    manifestNumbers (collectParts n results) =
      (List.range n).map (fun i : Nat => (i : Int) + 1) ∧
    List.Pairwise (fun a b => a < b) (manifestNumbers (collectParts n results)) ∧
    (collectParts n results).length = n := by
  have hlen : (collectParts n results).length = n := by
    unfold collectParts
    rw [foldl_recordPart_length, List.length_replicate]
  have hcov : ∀ i, i < n → ∃ p ∈ results, p.partNumber = (i : Int) + 1 := by
    intro i hi
    have hmem : ((i : Int) + 1) ∈ (List.range n).map (fun i : Nat => (i : Int) + 1) :=
      List.mem_map.mpr ⟨i, List.mem_range.mpr hi, rfl⟩
    have hmem2 : ((i : Int) + 1) ∈ results.map CompletedPart.partNumber :=
      (hperm.mem_iff).mpr hmem
    obtain ⟨p, hp, hpn⟩ := List.mem_map.mp hmem2
    exact ⟨p, hp, hpn⟩
  have hfilled : ∀ i, i < (collectParts n results).length →
      ∃ p, (collectParts n results)[i]? = some (some p) ∧ p.partNumber = (i : Int) + 1 := by
    intro i hi
    rw [hlen] at hi
    obtain ⟨q, hq⟩ := collect_covers results (List.replicate n none) i
      (by rw [List.length_replicate]; exact hi) (hcov i hi)
    refine ⟨q, hq, ?_⟩
    exact collect_inv results (List.replicate n none) (slotInv_replicate n) i q hq
  have hman := manifestNumbers_of_filled (collectParts n results)
    (fun i : Nat => (i : Int) + 1) hfilled
  rw [hlen] at hman
  refine ⟨hman, ?_, hlen⟩
  rw [hman]
  rw [List.pairwise_map]
  exact (List.pairwise_lt_range n).imp (fun hab => by omega)

/-- C2 witness: three parts finishing in the order 2, 3, 1. -/
theorem c2_manifest_sorted_witness :
    List.Perm
      (([⟨10, 2⟩, ⟨30, 3⟩, ⟨20, 1⟩] : List CompletedPart).map CompletedPart.partNumber)
      ((List.range 3).map (fun i : Nat => (i : Int) + 1)) ∧
    (manifestNumbers (collectParts 3 [⟨10, 2⟩, ⟨30, 3⟩, ⟨20, 1⟩]) =
        (List.range 3).map (fun i : Nat => (i : Int) + 1) ∧
      List.Pairwise (fun a b => a < b)
        (manifestNumbers (collectParts 3 [⟨10, 2⟩, ⟨30, 3⟩, ⟨20, 1⟩])) ∧
      (collectParts 3 ([⟨10, 2⟩, ⟨30, 3⟩, ⟨20, 1⟩] : List CompletedPart)).length = 3) :=
  ⟨by decide, c2_manifest_sorted 3 [⟨10, 2⟩, ⟨30, 3⟩, ⟨20, 1⟩] (by decide)⟩

/-- C10: a completed-part result whose sequence number lies outside
`1..partsCount` is silently discarded — the guarded write returns the
slot array unchanged — and a write never changes the array's length, so
recording a result can never index out of range. -/
theorem c10_out_of_range_discarded (slots : List (Option CompletedPart))
    (p : CompletedPart) :
    (p.partNumber < 1 ∨ (slots.length : Int) < p.partNumber →
      recordPart slots p = slots) ∧
    (recordPart slots p).length = slots.length := by
  refine ⟨fun h => ?_, recordPart_length slots p⟩
  unfold recordPart
  rw [if_neg]
  rintro ⟨h1, h2⟩
  rcases h with h | h <;> omega

/-- C10 witness: part number 7 against a 3-slot array, and part number 0. -/
theorem c10_out_of_range_discarded_witness :
    recordPart (List.replicate 3 none) ⟨5, 7⟩ = List.replicate 3 none ∧
    recordPart (List.replicate 3 none) ⟨5, 0⟩ = List.replicate 3 none ∧
    (recordPart (List.replicate 3 none) ⟨5, 7⟩).length = 3 :=
  ⟨(c10_out_of_range_discarded (List.replicate 3 none) ⟨5, 7⟩).1 (Or.inr (by decide)),
    (c10_out_of_range_discarded (List.replicate 3 none) ⟨5, 0⟩).1 (Or.inl (by decide)),
    by
      rw [(c10_out_of_range_discarded (List.replicate 3 none) ⟨5, 7⟩).2]
      rfl⟩

/-- Buffer-tracking state of the concurrent pipeline, with buffers
identified by allocation number: the buffer the reader has taken from
the pool and not yet dispatched (if any), the filled buffers sitting in
the dispatch channel (`partsChan`, capacity = concurrency, FIFO), the
buffers held by workers whose part upload is in flight, the buffers
resting in the pool (`bufferPool`), and how many buffers have been
allocated so far (`bufferPool.New` allocations are numbered 0, 1, …). -/
structure PoolSys where
  readerBuf : Option Nat
  chan : List Nat
  uploading : List Nat
  free : List Nat
  allocated : Nat
deriving DecidableEq

/-- The buffers currently owned by an in-flight operation: the one the
reader is filling, those queued for dispatch, and those being uploaded.
These are exactly the buffers taken from the pool and not yet returned. -/
def inFlight (s : PoolSys) : List Nat :=
  s.readerBuf.toList ++ s.chan ++ s.uploading

/-- All buffers of the system, in flight or resting in the pool, as a
multiset. -/
def poolBufs (s : PoolSys) : Multiset Nat :=
  (↑(inFlight s) : Multiset Nat) + ↑s.free

/-- The number of live (taken-and-unreturned) part-size buffers. -/
def liveBuffers (s : PoolSys) : Nat := (inFlight s).length

/-- The buffer moves of the concurrent variant of main.go with
concurrency `N`: `bufferPool.Get` at the top of the read loop either
allocates a fresh buffer (`bufferPool.New`) or hands out a pooled one;
the reader sends its filled buffer on the dispatch channel, blocked
unless fewer than `N` buffers are queued (the channel's capacity); one
of the `N` workers receives the oldest queued buffer and starts its
upload; a worker returns its buffer with `bufferPool.Put` when the
upload call finishes; the reader returns its buffer with
`bufferPool.Put` on the read-error, empty-read and cancellation paths. -/
inductive PoolStep (N : Nat) : PoolSys → PoolSys → Prop
  | getFresh (s : PoolSys) : s.readerBuf = none →
      PoolStep N s ⟨some s.allocated, s.chan, s.uploading, s.free, s.allocated + 1⟩
  | getFree (s : PoolSys) (b : Nat) (f : List Nat) : s.readerBuf = none →
      s.free = b :: f →
      PoolStep N s ⟨some b, s.chan, s.uploading, f, s.allocated⟩
  | dispatch (s : PoolSys) (b : Nat) : s.readerBuf = some b → s.chan.length < N →
      PoolStep N s ⟨none, s.chan ++ [b], s.uploading, s.free, s.allocated⟩
  | recvStart (s : PoolSys) (b : Nat) (c : List Nat) : s.chan = b :: c →
      s.uploading.length < N →
      PoolStep N s ⟨s.readerBuf, c, s.uploading ++ [b], s.free, s.allocated⟩
  | finishPut (s : PoolSys) (b : Nat) : b ∈ s.uploading →
      PoolStep N s ⟨s.readerBuf, s.chan, s.uploading.erase b, b :: s.free, s.allocated⟩
  | readerPut (s : PoolSys) (b : Nat) : s.readerBuf = some b →
      PoolStep N s ⟨none, s.chan, s.uploading, b :: s.free, s.allocated⟩

/-- The states the pipeline can reach from the start of an upload, when
no buffer exists yet. -/
inductive PoolReachable (N : Nat) : PoolSys → Prop
  | init : PoolReachable N ⟨none, [], [], [], 0⟩
  | step {s t : PoolSys} : PoolReachable N s → PoolStep N s t → PoolReachable N t

/-- The pipeline's buffer invariant: no buffer appears twice anywhere
(in particular no buffer is owned by two in-flight operations, and no
pooled buffer is also in flight), every buffer was allocated, and the
channel and worker pool respectively hold at most `N` buffers. -/
def PoolInv (N : Nat) (s : PoolSys) : Prop :=
  (poolBufs s).Nodup ∧ (∀ b ∈ poolBufs s, b < s.allocated) ∧
    s.chan.length ≤ N ∧ s.uploading.length ≤ N

theorem poolStep_inv {N : Nat} {s t : PoolSys} (hstep : PoolStep N s t)
    (h : PoolInv N s) : PoolInv N t := by
  obtain ⟨hnd, hlt, hc, hu⟩ := h
  cases hstep with
  | getFresh hr =>
    have hps : poolBufs ⟨some s.allocated, s.chan, s.uploading, s.free, s.allocated + 1⟩ =
        s.allocated ::ₘ poolBufs s := by
      simp only [poolBufs, inFlight, hr, Option.toList_some, Option.toList_none,
        List.nil_append, List.singleton_append]
      simp only [← Multiset.coe_add, ← Multiset.cons_coe, ← Multiset.singleton_add]
      abel
    have hnew : s.allocated ∉ poolBufs s := fun hmem => absurd (hlt _ hmem) (by omega)
    refine ⟨?_, ?_, hc, hu⟩
    · rw [hps]
      exact Multiset.nodup_cons.mpr ⟨hnew, hnd⟩
    · intro b hb
      rw [hps] at hb
      rcases Multiset.mem_cons.mp hb with rfl | hb
      · show s.allocated < s.allocated + 1
        omega
      · have := hlt b hb
        show b < s.allocated + 1
        omega
  | getFree b f hr hf =>
    have hps : poolBufs ⟨some b, s.chan, s.uploading, f, s.allocated⟩ = poolBufs s := by
      simp only [poolBufs, inFlight, hr, hf, Option.toList_some, Option.toList_none,
        List.nil_append, List.singleton_append]
      simp only [← Multiset.coe_add, ← Multiset.cons_coe, ← Multiset.singleton_add]
      abel
    exact ⟨by rw [hps]; exact hnd, by rw [hps]; exact hlt, hc, hu⟩
  | dispatch b hr hq =>
    have hps : poolBufs ⟨none, s.chan ++ [b], s.uploading, s.free, s.allocated⟩ =
        poolBufs s := by
      simp only [poolBufs, inFlight, hr, Option.toList_some, Option.toList_none,
        List.nil_append, List.singleton_append]
      simp only [← Multiset.coe_add, ← Multiset.cons_coe, ← Multiset.singleton_add]
      abel
    refine ⟨by rw [hps]; exact hnd, by rw [hps]; exact hlt, ?_, hu⟩
    rw [List.length_append]
    simpa using hq
  | recvStart b c hch hw =>
    have hps : poolBufs ⟨s.readerBuf, c, s.uploading ++ [b], s.free, s.allocated⟩ =
        poolBufs s := by
      simp only [poolBufs, inFlight, hch, Option.toList_some, Option.toList_none,
        List.nil_append, List.singleton_append]
      simp only [← Multiset.coe_add, ← Multiset.cons_coe, ← Multiset.singleton_add]
      abel
    refine ⟨by rw [hps]; exact hnd, by rw [hps]; exact hlt, ?_, ?_⟩
    · show c.length ≤ N
      rw [hch] at hc
      simp only [List.length_cons] at hc
      omega
    · rw [List.length_append]
      simpa using hw
  | finishPut b hb =>
    have hU : (↑s.uploading : Multiset Nat) = {b} + (↑(s.uploading.erase b) : Multiset Nat) := by
      rw [Multiset.coe_eq_coe.mpr (List.perm_cons_erase hb), ← Multiset.cons_coe,
        Multiset.singleton_add]
    have hps : poolBufs ⟨s.readerBuf, s.chan, s.uploading.erase b, b :: s.free, s.allocated⟩ =
        poolBufs s := by
      simp only [poolBufs, inFlight]
      simp only [← Multiset.coe_add, ← Multiset.cons_coe, ← Multiset.singleton_add]
      rw [hU]
      abel
    refine ⟨by rw [hps]; exact hnd, by rw [hps]; exact hlt, hc, ?_⟩
    exact le_trans (List.erase_sublist b s.uploading).length_le hu
  | readerPut b hr =>
    have hps : poolBufs ⟨none, s.chan, s.uploading, b :: s.free, s.allocated⟩ =
        poolBufs s := by
      simp only [poolBufs, inFlight, hr, Option.toList_some, Option.toList_none,
        List.nil_append, List.singleton_append]
      simp only [← Multiset.coe_add, ← Multiset.cons_coe, ← Multiset.singleton_add]
      abel
    exact ⟨by rw [hps]; exact hnd, by rw [hps]; exact hlt, hc, hu⟩

theorem pool_reachable_inv (N : Nat) (s : PoolSys) (h : PoolReachable N s) :
    PoolInv N s := by
  induction h with
  | init =>
    refine ⟨?_, ?_, ?_, ?_⟩ <;> simp [poolBufs, inFlight]
  | step hs hstep ih => exact poolStep_inv hstep ih

/-- C9 counterexample: at concurrency `N = 2` (concurrent mode, not the
sequential `N = 1` case) the pipeline can reach the state where two
buffers are mid-upload at the workers, two more fill the dispatch
channel, and the reader holds a fifth it has just taken from the pool:
5 buffers are live, which exceeds the claimed `N + 1 = 3` bound. -/
theorem c9_pool_exceeds_claimed_bound :
    PoolReachable 2 ⟨some 4, [2, 3], [0, 1], [], 5⟩ ∧
    liveBuffers ⟨some 4, [2, 3], [0, 1], [], 5⟩ = 5 ∧ ¬(5 ≤ 2 + 1) := by
  refine ⟨?_, rfl, by omega⟩
  have h1 : PoolReachable 2 ⟨some 0, [], [], [], 1⟩ :=
    .step .init (.getFresh _ rfl)
  have h2 : PoolReachable 2 ⟨none, [0], [], [], 1⟩ :=
    .step h1 (.dispatch _ 0 rfl (by decide))
  have h3 : PoolReachable 2 ⟨none, [], [0], [], 1⟩ :=
    .step h2 (.recvStart _ 0 [] rfl (by decide))
  have h4 : PoolReachable 2 ⟨some 1, [], [0], [], 2⟩ :=
    .step h3 (.getFresh _ rfl)
  have h5 : PoolReachable 2 ⟨none, [1], [0], [], 2⟩ :=
    .step h4 (.dispatch _ 1 rfl (by decide))
  have h6 : PoolReachable 2 ⟨none, [], [0, 1], [], 2⟩ :=
    .step h5 (.recvStart _ 1 [] rfl (by decide))
  have h7 : PoolReachable 2 ⟨some 2, [], [0, 1], [], 3⟩ :=
    .step h6 (.getFresh _ rfl)
  have h8 : PoolReachable 2 ⟨none, [2], [0, 1], [], 3⟩ :=
    .step h7 (.dispatch _ 2 rfl (by decide))
  have h9 : PoolReachable 2 ⟨some 3, [2], [0, 1], [], 4⟩ :=
    .step h8 (.getFresh _ rfl)
  have h10 : PoolReachable 2 ⟨none, [2, 3], [0, 1], [], 4⟩ :=
    .step h9 (.dispatch _ 3 rfl (by decide))
  exact .step h10 (.getFresh _ rfl)

/-- C9 amended: in every reachable state of the pipeline at concurrency
`N`, no buffer is owned by two in-flight operations at once (the
reader's buffer, the queued buffers and the uploading buffers are
pairwise distinct), and the number of live (taken-and-unreturned)
buffers never exceeds `2·N + 1` — at most one at the reader, at most
`N` queued in the dispatch channel, at most `N` at the workers.  The
claimed `N + 1` bound holds only in the sequential reading; in
concurrent mode it can be exceeded (see the counterexample), and
`2·N + 1` is the bound the channel capacity and worker count enforce. -/
theorem c9_pool_bound (N : Nat) (s : PoolSys) (h : PoolReachable N s) :
    (inFlight s).Nodup ∧ s.chan.length ≤ N ∧ s.uploading.length ≤ N ∧
      liveBuffers s ≤ 2 * N + 1 := by
  obtain ⟨hnd, -, hc, hu⟩ := pool_reachable_inv N s h
  refine ⟨?_, hc, hu, ?_⟩
  · have hle : (↑(inFlight s) : Multiset Nat) ≤ poolBufs s :=
      Multiset.le_add_right _ _
    exact Multiset.coe_nodup.mp (Multiset.nodup_of_le hle hnd)
  · have hrb : s.readerBuf.toList.length ≤ 1 := by
      cases s.readerBuf <;> simp
    unfold liveBuffers inFlight
    rw [List.length_append, List.length_append]
    omega

/-- C9 amended witness: concurrency 1, after one get-dispatch-receive
round. -/
theorem c9_pool_bound_witness :
    PoolReachable 1 ⟨none, [], [0], [], 1⟩ ∧
    ((inFlight ⟨none, [], [0], [], 1⟩).Nodup ∧
      ((⟨none, [], [0], [], 1⟩ : PoolSys).chan.length ≤ 1 ∧
        (⟨none, [], [0], [], 1⟩ : PoolSys).uploading.length ≤ 1 ∧
        liveBuffers ⟨none, [], [0], [], 1⟩ ≤ 2 * 1 + 1)) := by
  have hreach : PoolReachable 1 ⟨none, [], [0], [], 1⟩ :=
    .step (.step (.step .init (.getFresh _ rfl)) (.dispatch _ 0 rfl (by decide)))
      (.recvStart _ 0 [] rfl (by decide))
  have hall := c9_pool_bound 1 ⟨none, [], [0], [], 1⟩ hreach
  exact ⟨hreach, hall.1, hall.2.1, hall.2.2.1, hall.2.2.2⟩

end Tinyups3
